import Mathlib

/-!
Verification of `fairfax_letter_finder.py` against its specification.

The Python program is embedded shallowly: pure text-processing functions
become Lean functions over `List Char` / `String`; external effects
(network transport outcomes, the OCR engine, the wall clock) become
explicit oracle parameters; the mutable loop state of each routine becomes
explicit state passing.  Machine integers do not occur (Python integers are
unbounded), so scores and counters are `Nat` and times are `ℚ`.
-/

/-! ## Character classes and low-level string helpers

Python's `re` module classes, restricted to the ASCII texts this program
processes: `\w` is `[A-Za-z0-9_]`, `\s` is `[ \t\n\r\x0b\x0c]`,
`\d` is `[0-9]`.  `str.strip` removes the same whitespace class from both
ends; `in` is substring containment; `str.split` keeps empty pieces.
-/

def isWordChar (c : Char) : Bool := c.isAlphanum || c == '_'

def isSpaceChar (c : Char) : Bool :=
  c == ' ' || c == '\t' || c == '\n' || c == '\r' || c == '\x0b' || c == '\x0c'

/-- Case-insensitive character comparison (`re.IGNORECASE`). -/
def lowerEq (a b : Char) : Bool := a.toLower == b.toLower

/-- Exact prefix test on character lists (Python `str.startswith`). -/
def isPrefixChars : List Char → List Char → Bool
  | [], _ => true
  | _ :: _, [] => false
  | a :: as, b :: bs => a == b && isPrefixChars as bs

/-- Substring containment (Python `needle in hay`). -/
def containsSub (hay needle : List Char) : Bool :=
  match hay with
  | [] => needle.isEmpty
  | _ :: t => isPrefixChars needle hay || containsSub t needle

def strContains (hay needle : String) : Bool := containsSub hay.data needle.data

def stripChars (cs : List Char) : List Char :=
  ((cs.dropWhile isSpaceChar).reverse.dropWhile isSpaceChar).reverse

/-- Python `str.strip()`. -/
def pyStrip (s : String) : String := String.mk (stripChars s.data)

/-- Python `str.split("\n")`: splits on every newline, keeping empty pieces. -/
def splitNl : List Char → List (List Char)
  | [] => [[]]
  | c :: cs =>
    if c == '\n' then [] :: splitNl cs
    else
      match splitNl cs with
      | [] => [[c]]
      | l :: ls => (c :: l) :: ls

def splitLines (s : String) : List String := (splitNl s.data).map String.mk

/-! ## Entity patterns of `OCRProcessor.analyze_text`

`churchill_patterns = [r'\bchurchill\b', r'\bwinston\b', r'\bprime\s+minister\b']`
`fairfax_patterns = [r'\bfairfax\b', r'\bbryan\b', r'\bcolonel\b']`
searched with `re.search(pattern, text, re.IGNORECASE)`.
`\b` holds where exactly one side is a `\w` character (or the text edge).
-/

/-- Match the given word case-insensitively at the head of the text,
returning the remaining text. -/
def matchCI : List Char → List Char → Option (List Char)
  | [], cs => some cs
  | _ :: _, [] => none
  | p :: ps, c :: cs => if lowerEq p c then matchCI ps cs else none

/-- Word boundary before a match: previous character absent or not `\w`. -/
def boundaryBefore (prev : Option Char) : Bool :=
  match prev with
  | none => true
  | some c => !(isWordChar c)

/-- Word boundary after a match: next character absent or not `\w`. -/
def boundaryAfter : List Char → Bool
  | [] => true
  | c :: _ => !(isWordChar c)

/-- `re.search(r'\bWORD\b', text, re.IGNORECASE)`: scan every start
position, tracking the previous character for the left boundary. -/
def searchWordFrom (w : List Char) (prev : Option Char) : List Char → Bool
  | [] => false
  | c :: cs =>
    (boundaryBefore prev &&
      match matchCI w (c :: cs) with
      | some rest => boundaryAfter rest
      | none => false) ||
    searchWordFrom w (some c) cs

def searchWord (w : String) (cs : List Char) : Bool := searchWordFrom w.data none cs

/-- The pattern `\bprime\s+minister\b` (case-insensitive) at one position.
`\s+` is taken maximally; this is exact because `minister` cannot begin
with a whitespace character, so no shorter `\s+` match can succeed. -/
def matchPrimeMinisterAt (cs : List Char) : Bool :=
  match matchCI ("prime".data) cs with
  | none => false
  | some r1 =>
    !(r1.takeWhile isSpaceChar).isEmpty &&
    match matchCI ("minister".data) (r1.dropWhile isSpaceChar) with
    | some r2 => boundaryAfter r2
    | none => false

def searchPrimeMinisterFrom (prev : Option Char) : List Char → Bool
  | [] => false
  | c :: cs =>
    (boundaryBefore prev && matchPrimeMinisterAt (c :: cs)) ||
    searchPrimeMinisterFrom (some c) cs

/-- The `churchill_patterns` loop: the Python `for`/`break` sets the flag as
soon as one pattern matches, which is the disjunction of the three. -/
def churchillAny (cs : List Char) : Bool :=
  searchWord ("churchill") cs || searchWord ("winston") cs ||
    searchPrimeMinisterFrom none cs

/-- The `fairfax_patterns` loop. -/
def fairfaxAny (cs : List Char) : Bool :=
  searchWord ("fairfax") cs || searchWord ("bryan") cs || searchWord ("colonel") cs

/-! ## The strict date pattern of `analyze_text`

`date_pattern = r'(\d{1,2})\s+(January|...|December)\s+(19[0-9]{2})'`,
used with `re.findall` (no flags, hence case-sensitive).  Each `\s+` is
taken maximally, which is exact because month names and `19..` years cannot
begin with whitespace; `\d{1,2}` is greedy, trying two digits before one.
-/

structure DateTriple where
  day : String
  month : String
  year : String
deriving DecidableEq

def monthNames : List String :=
  ["January", "February", "March", "April", "May", "June", "July",
   "August", "September", "October", "November", "December"]

/-- Consume one-or-more whitespace characters (`\s+`), maximally. -/
def matchSpaces1 (cs : List Char) : Option (List Char) :=
  if (cs.takeWhile isSpaceChar).isEmpty then none else some (cs.dropWhile isSpaceChar)

/-- Regex alternation: try each literal alternative in order. -/
def matchAltList : List String → List Char → Option (String × List Char)
  | [], _ => none
  | m :: ms, cs =>
    if isPrefixChars m.data cs then some (m, cs.drop m.data.length)
    else matchAltList ms cs

/-- The month alternation, tried in the source order of the pattern.
No month name is a prefix of another, so at most one branch matches. -/
def matchMonthAt (cs : List Char) : Option (String × List Char) :=
  matchAltList monthNames cs

/-- The year group `(19[0-9]{2})`. -/
def matchYearAt : List Char → Option (String × List Char)
  | '1' :: '9' :: a :: b :: rest =>
    if a.isDigit && b.isDigit then some (String.mk ['1', '9', a, b], rest) else none
  | _ => none

/-- The pattern tail `\s+(Month)\s+(19[0-9]{2})` after the day group:
the sequencing of the regex parts is `Option.bind`. -/
def matchAfterDay (day : String) (cs : List Char) : Option (DateTriple × List Char) :=
  (matchSpaces1 cs).bind fun r1 =>
    (matchMonthAt r1).bind fun p =>
      (matchSpaces1 p.2).bind fun r3 =>
        (matchYearAt r3).bind fun q => some (⟨day, p.1, q.1⟩, q.2)

/-- Regex backtracking choice: commit to the first branch when it
matches, otherwise try the second. -/
def firstSome {α : Type} : Option α → Option α → Option α
  | some x, _ => some x
  | none, b => b

/-- The date pattern after its (digit) first character: the greedy
`\d{1,2}` tries a two-digit day first and backtracks to one digit. -/
def matchDayTail (c1 : Char) : List Char → Option (DateTriple × List Char)
  | [] => none
  | c2 :: rest2 =>
    if c2.isDigit then
      firstSome (matchAfterDay (String.mk [c1, c2]) rest2)
        (matchAfterDay (String.mk [c1]) (c2 :: rest2))
    else matchAfterDay (String.mk [c1]) (c2 :: rest2)

/-- Try to match the whole date pattern at this position. -/
def matchDateAt : List Char → Option (DateTriple × List Char)
  | [] => none
  | c1 :: rest => if c1.isDigit then matchDayTail c1 rest else none

/-- `re.findall(date_pattern, text)`: leftmost matches, scanning resumes
after each match.  The fuel starts at the text length; it never runs out
because each step consumes at least one character. -/
def findDatesFuel : Nat → List Char → List DateTriple
  | 0, _ => []
  | _ + 1, [] => []
  | fuel + 1, c :: cs =>
    match matchDateAt (c :: cs) with
    | some (t, rest) => t :: findDatesFuel fuel rest
    | none => findDatesFuel fuel cs

def findDates (cs : List Char) : List DateTriple := findDatesFuel cs.length cs

/-! ## `OCRProcessor.analyze_text` -/

structure Analysis where
  likely_correspondence : Bool
  mentions_churchill : Bool
  mentions_fairfax : Bool
  date_found : Option String
  relevance_score : Nat
deriving DecidableEq

/-- `int(...)` on a digit string. -/
def parseNat (cs : List Char) : Nat :=
  cs.foldl (fun n c => n * 10 + (c.toNat - '0'.toNat)) 0

def month_mapping : List (String × Nat) :=
  [("January", 1), ("February", 2), ("March", 3), ("April", 4),
   ("May", 5), ("June", 6), ("July", 7), ("August", 8),
   ("September", 9), ("October", 10), ("November", 11), ("December", 12)]

/-- `month_mapping.get(month, 0)`. -/
def monthNum (m : String) : Nat :=
  match month_mapping.lookup m with
  | some n => n
  | none => 0

/-- `f"{day} {month} {year}"`. -/
def fmtTriple (t : DateTriple) : String :=
  t.day ++ " " ++ t.month ++ " " ++ t.year

/-- The `int(year) == 1946 and month_mapping.get(month, 0) >= 10` test on the
first captured date, if any. -/
def dateWindowBonus : Option DateTriple → Bool
  | none => false
  | some t => parseNat t.year.data == 1946 && decide (10 ≤ monthNum t.month)

/-- `OCRProcessor.analyze_text`.  The incremental `+= 10 / += 10 / += 30`
updates of `relevance_score` total the sum below, and
`likely_correspondence` is decided last from the final score. -/
def analyze_text (text : String) : Analysis :=
  let cs := text.data
  let mc := churchillAny cs
  let mf := fairfaxAny cs
  let fd := (findDates cs).head?
  let score : Nat :=
    (if mc then 10 else 0) + (if mf then 10 else 0) +
      (if dateWindowBonus fd then 30 else 0)
  { likely_correspondence := mc && mf && decide (20 ≤ score)
    mentions_churchill := mc
    mentions_fairfax := mf
    date_found := fd.map fmtTriple
    relevance_score := score }

/-! ## Claims C1, C3, C9: the relevance scorer -/

/-- The two entity bonuses of `analyze_text` taken together. -/
def entityScoreOf (text : String) : Nat :=
  (if churchillAny text.data then 10 else 0) + (if fairfaxAny text.data then 10 else 0)

def textNov1946 : String := "15 November 1946"

def textNov1945 : String := "15 November 1945"

def textMar1946 : String := "15 March 1946"

def textWinCol : String := "Winston Colonel"

def textChuFai : String := "Churchill Fairfax"

def emptyText : String := ""

lemma matchAltList_mem :
    ∀ {ms : List String} {cs : List Char} {m : String} {r : List Char},
      matchAltList ms cs = some (m, r) → m ∈ ms := by
  intro ms
  induction ms with
  | nil => intro cs m r h; cases h
  | cons a ms ih =>
    intro cs m r h
    unfold matchAltList at h
    by_cases hp : isPrefixChars a.data cs = true
    · rw [if_pos hp] at h
      cases h
      exact List.mem_cons_self _ _
    · rw [if_neg hp] at h
      exact List.mem_cons_of_mem _ (ih h)

lemma matchAfterDay_month {d : String} {cs : List Char} {t : DateTriple} {r : List Char}
    (h : matchAfterDay d cs = some (t, r)) : t.month ∈ monthNames := by
  simp only [matchAfterDay, Option.bind_eq_some] at h
  obtain ⟨r1, h1, p, h2, r3, h3, q, h4, h5⟩ := h
  cases h5
  exact matchAltList_mem h2

lemma firstSome_eq_some {α : Type} {a b : Option α} {x : α}
    (h : firstSome a b = some x) : a = some x ∨ b = some x := by
  cases a with
  | some y => exact Or.inl h
  | none => exact Or.inr h

lemma matchDayTail_month {c1 : Char} {rest : List Char} {t : DateTriple} {r : List Char}
    (h : matchDayTail c1 rest = some (t, r)) : t.month ∈ monthNames := by
  cases rest with
  | nil => cases h
  | cons c2 rest2 =>
    simp only [matchDayTail] at h
    by_cases hd2 : c2.isDigit = true
    · rw [if_pos hd2] at h
      rcases firstSome_eq_some h with h5 | h5
      · exact matchAfterDay_month h5
      · exact matchAfterDay_month h5
    · rw [if_neg hd2] at h
      exact matchAfterDay_month h

lemma matchDateAt_month {cs : List Char} {t : DateTriple} {r : List Char}
    (h : matchDateAt cs = some (t, r)) : t.month ∈ monthNames := by
  cases cs with
  | nil => cases h
  | cons c1 rest =>
    simp only [matchDateAt] at h
    by_cases hd1 : c1.isDigit = true
    · rw [if_pos hd1] at h
      exact matchDayTail_month h
    · rw [if_neg hd1] at h
      cases h

lemma findDatesFuel_months :
    ∀ (fuel : Nat) (cs : List Char), ∀ t ∈ findDatesFuel fuel cs, t.month ∈ monthNames := by
  intro fuel
  induction fuel with
  | zero => intro cs t ht; simp [findDatesFuel] at ht
  | succ n ih =>
    intro cs t ht
    cases cs with
    | nil => simp [findDatesFuel] at ht
    | cons c cs =>
      unfold findDatesFuel at ht
      cases hm : matchDateAt (c :: cs) with
      | none =>
        rw [hm] at ht
        exact ih _ t ht
      | some p =>
        rw [hm] at ht
        obtain ⟨t0, rest⟩ := p
        rcases List.mem_cons.mp ht with h | h
        · subst h; exact matchDateAt_month hm
        · exact ih _ t h

lemma findDates_months (cs : List Char) : ∀ t ∈ findDates cs, t.month ∈ monthNames :=
  findDatesFuel_months cs.length cs

/-- C1: `analyze_text` reports `likely_correspondence = true` iff a
Churchill pattern and a Fairfax pattern both match (case-insensitively) and
the relevance score is at least 20; and whenever both entities match, the
score is automatically at least 20 and the verdict is true. -/
theorem analyze_text_likely_iff (text : String) :
    (((analyze_text text).likely_correspondence = true) ↔
      (churchillAny text.data = true ∧ fairfaxAny text.data = true ∧
        20 ≤ (analyze_text text).relevance_score)) ∧
    (churchillAny text.data = true → fairfaxAny text.data = true →
      20 ≤ (analyze_text text).relevance_score ∧
        (analyze_text text).likely_correspondence = true) := by
  cases hc : churchillAny text.data <;>
    cases hf : fairfaxAny text.data <;>
      cases hd : dateWindowBonus ((findDates text.data).head?) <;>
        simp [analyze_text, hc, hf, hd]

/-- C1 witness: a text matching `winston` and `colonel` is judged likely
correspondence with score at least 20. -/
theorem analyze_text_likely_iff_witness :
    20 ≤ (analyze_text textWinCol).relevance_score ∧
      (analyze_text textWinCol).likely_correspondence = true :=
  (analyze_text_likely_iff textWinCol).2 (by decide) (by decide)

/-- C3: `analyze_text` records only the first (leftmost) date match; the
+30 bonus is added exactly when that first date's year is 1946 and its
month maps to October or later; every captured month is a well-formed
month name (so the `int(year)` / month-lookup step never fails); and the
three concrete example texts score 30, 0 and 0. -/
theorem analyze_text_first_date_rule (text : String) (d m y : String) :
    ((analyze_text text).date_found = ((findDates text.data).head?).map fmtTriple) ∧
    ((analyze_text text).relevance_score =
      entityScoreOf text +
        (if dateWindowBonus ((findDates text.data).head?) then 30 else 0)) ∧
    (dateWindowBonus (some ⟨d, m, y⟩) = true ↔
      (parseNat y.data = 1946 ∧ 10 ≤ monthNum m)) ∧
    (∀ t ∈ findDates text.data, t.month ∈ monthNames) ∧
    (analyze_text textNov1946).relevance_score = 30 ∧
    (analyze_text textNov1945).relevance_score = 0 ∧
    (analyze_text textMar1946).relevance_score = 0 := by
  refine ⟨rfl, rfl, ?_, findDates_months text.data, by decide, by decide, by decide⟩
  simp [dateWindowBonus]

/-- C3 witness: the date captured from "15 November 1946" is a well-formed
month name. -/
theorem analyze_text_first_date_rule_witness :
    (⟨"15", "November", "1946"⟩ : DateTriple).month ∈ monthNames :=
  (analyze_text_first_date_rule textNov1946 emptyText emptyText emptyText).2.2.2.1
    ⟨"15", "November", "1946"⟩ (by decide)

/-- C9: the relevance score is the sum of a single +10 Churchill bonus, a
single +10 Fairfax bonus and a single +30 date bonus, hence at most 50;
and a true verdict implies a score of at least 20. -/
theorem analyze_text_score_decomposition (text : String) :
    ((analyze_text text).relevance_score =
      (if (analyze_text text).mentions_churchill then 10 else 0) +
        (if (analyze_text text).mentions_fairfax then 10 else 0) +
        (if dateWindowBonus ((findDates text.data).head?) then 30 else 0)) ∧
    (analyze_text text).relevance_score ≤ 50 ∧
    ((analyze_text text).likely_correspondence = true →
      20 ≤ (analyze_text text).relevance_score) := by
  cases hc : churchillAny text.data <;>
    cases hf : fairfaxAny text.data <;>
      cases hd : dateWindowBonus ((findDates text.data).head?) <;>
        simp [analyze_text, hc, hf, hd]

/-- C9 witness: a text matching `churchill` and `fairfax` has verdict true
and score at least 20. -/
theorem analyze_text_score_decomposition_witness :
    20 ≤ (analyze_text textChuFai).relevance_score :=
  (analyze_text_score_decomposition textChuFai).2.2 (by decide)

/-! ## Claim C2: prioritisation inside `FairfaxLetterAgent.download_documents`

`sorted(self.search_results, key=lambda x: 0 if "1946" in x.get("date","")
and any(month in x.get("date","") for month in ["Oct", "Nov", "December"])
else 1)`.  Python's `sorted` is stable; a stable sort on a two-valued key
is modelled by a stable insertion sort, for which the partition shape is
proved below rather than assumed.
-/

structure SearchRecord where
  archive : String
  reference : String
  title : String
  date : String
  item_id : String
  image_urls : List String
deriving DecidableEq

/-- The condition of the sort-key lambda. -/
def isPriorityDate (r : SearchRecord) : Bool :=
  strContains r.date ("1946") &&
    (["Oct", "Nov", "December"].any fun m => strContains r.date m)

/-- The sort key: 0 for priority records, 1 for the rest. -/
def downloadKey (r : SearchRecord) : Nat := if isPriorityDate r then 0 else 1

/-- Stable insertion: `lt a b` means `a` must come strictly before `b`;
the inserted element goes after every element strictly preceding it, so
elements comparing equal keep their original relative order, as Python's
`sorted` guarantees. -/
def insSorted {α : Type} (lt : α → α → Bool) (x : α) : List α → List α
  | [] => [x]
  | y :: ys => if lt y x then y :: insSorted lt x ys else x :: y :: ys

def stableSort {α : Type} (lt : α → α → Bool) : List α → List α
  | [] => []
  | x :: xs => insSorted lt x (stableSort lt xs)

/-- The prioritised ordering used by `download_documents`. -/
def prioritizedRecords (rs : List SearchRecord) : List SearchRecord :=
  stableSort (fun a b => decide (downloadKey a < downloadKey b)) rs

lemma insSorted_front {α : Type} {lt : α → α → Bool} {x : α} :
    ∀ {l : List α}, (∀ y ∈ l, lt y x = false) → insSorted lt x l = x :: l := by
  intro l h
  cases l with
  | nil => rfl
  | cons y ys => simp [insSorted, h y (List.mem_cons_self y ys)]

lemma insSorted_append {α : Type} {lt : α → α → Bool} {x : α} :
    ∀ {A B : List α}, (∀ y ∈ A, lt y x = true) →
      insSorted lt x (A ++ B) = A ++ insSorted lt x B := by
  intro A
  induction A with
  | nil => intro B _; rfl
  | cons a A ih =>
    intro B h
    have ha : lt a x = true := h a (List.mem_cons_self a A)
    have hA : ∀ y ∈ A, lt y x = true := fun y hy => h y (List.mem_cons_of_mem _ hy)
    calc insSorted lt x ((a :: A) ++ B) = a :: insSorted lt x (A ++ B) := by
          simp [insSorted, ha]
      _ = a :: (A ++ insSorted lt x B) := by rw [ih hA]
      _ = (a :: A) ++ insSorted lt x B := rfl

lemma mem_insSorted {α : Type} {lt : α → α → Bool} {x a : α} :
    ∀ {l : List α}, a ∈ insSorted lt x l ↔ a = x ∨ a ∈ l := by
  intro l
  induction l with
  | nil => simp [insSorted]
  | cons y ys ih =>
    cases hy : lt y x with
    | true =>
      simp only [insSorted, hy, if_true, List.mem_cons, ih]
      tauto
    | false =>
      simp only [insSorted, hy, Bool.false_eq_true, if_false, List.mem_cons]

lemma mem_stableSort {α : Type} {lt : α → α → Bool} {a : α} :
    ∀ {l : List α}, a ∈ stableSort lt l ↔ a ∈ l := by
  intro l
  induction l with
  | nil => simp [stableSort]
  | cons x xs ih => simp [stableSort, mem_insSorted, ih]

lemma stableSort_binary_key (rs : List SearchRecord) :
    prioritizedRecords rs =
      rs.filter (fun r => isPriorityDate r) ++
        rs.filter (fun r => !(isPriorityDate r)) := by
  induction rs with
  | nil => rfl
  | cons r rs ih =>
    show insSorted _ r (prioritizedRecords rs) = _
    rw [ih]
    by_cases hr : isPriorityDate r = true
    · rw [insSorted_front]
      · simp [List.filter_cons, hr]
      · intro y _
        simp [downloadKey, hr]
    · rw [insSorted_append, insSorted_front]
      · simp [List.filter_cons, hr]
      · intro y hy
        have : isPriorityDate y = false := by
          simpa using (List.mem_filter.mp hy).2
        simp [downloadKey, this, hr]
      · intro y hy
        have : isPriorityDate y = true := by
          simpa using (List.mem_filter.mp hy).2
        simp [downloadKey, this, hr]

def recNov1946 : SearchRecord :=
  ⟨"Churchill Archives Centre", "r1", "t1", "3 Nov 1946", "i1", []⟩

def recJan1947 : SearchRecord :=
  ⟨"Churchill Archives Centre", "r2", "t2", "1 Jan 1947", "i2", []⟩

def recDec1946 : SearchRecord :=
  ⟨"Churchill Archives Centre", "r3", "t3", "20 Dec 1946", "i3", []⟩

/-- C2 counterexample: the record dated "20 Dec 1946" does NOT satisfy the
priority predicate, because the code checks only the substrings "Oct",
"Nov" and "December" and the full word "December" does not occur in
"20 Dec 1946"; consequently the sorted order of the spec's example is
`["3 Nov 1946", "1 Jan 1947", "20 Dec 1946"]`, not the claimed
`["3 Nov 1946", "20 Dec 1946", "1 Jan 1947"]`. -/
theorem prioritizedRecords_counterexample :
    isPriorityDate recDec1946 = false ∧
    prioritizedRecords [recNov1946, recJan1947, recDec1946] =
      [recNov1946, recJan1947, recDec1946] ∧
    prioritizedRecords [recNov1946, recJan1947, recDec1946] ≠
      [recNov1946, recDec1946, recJan1947] := by decide

/-- C2 (amended): `download_documents` orders records by a stable binary
sort: every record whose date string contains "1946" and one of the
substrings "Oct", "Nov", "December" comes before all others, and each
partition keeps the accumulation order.  In the spec's example only
"3 Nov 1946" matches the predicate ("Dec" is not among the checked
substrings), so the example list is left in its original order. -/
theorem prioritizedRecords_stable_partition (rs : List SearchRecord) :
    (prioritizedRecords rs =
      rs.filter (fun r => isPriorityDate r) ++
        rs.filter (fun r => !(isPriorityDate r))) ∧
    prioritizedRecords [recNov1946, recJan1947, recDec1946] =
      [recNov1946, recJan1947, recDec1946] :=
  ⟨stableSort_binary_key rs, by decide⟩

/-! ## Claim C4: retry loop of `ArchiveAPIClient.download_document_image`

`while retries < MAX_DOWNLOAD_RETRIES:` attempt the GET; on
`requests.RequestException` increment `retries`, sleep `retries * 2`
seconds and loop; on success return `True`; after the loop return
`False`.  The transport is the oracle `outcome i` (whether the i-th
attempt, 0-indexed, succeeds); the trace records attempts made, the sleep
durations, and the returned flag.  The fuel argument is the number of
remaining loop iterations, `MAX_DOWNLOAD_RETRIES - retries`.
-/

def MAX_DOWNLOAD_RETRIES : Nat := 3

structure DownloadTrace where
  attempts : Nat
  sleeps : List Nat
  result : Bool
deriving DecidableEq

def downloadAttemptsFrom (outcome : Nat → Bool) : Nat → Nat → DownloadTrace
  | _, 0 => ⟨0, [], false⟩
  | retries, fuel + 1 =>
    if outcome retries then ⟨1, [], true⟩
    else
      let t := downloadAttemptsFrom outcome (retries + 1) fuel
      ⟨t.attempts + 1, (retries + 1) * 2 :: t.sleeps, t.result⟩

def download_document_image (outcome : Nat → Bool) : DownloadTrace :=
  downloadAttemptsFrom outcome 0 MAX_DOWNLOAD_RETRIES

/-- C4: when every transport attempt fails, `download_document_image`
makes exactly 3 attempts, sleeps 2, 4 and 6 seconds after the successive
failures, and returns `false`; in general it returns `true` exactly when
one of the first three attempts succeeds, and never makes more than 3
attempts. -/
theorem download_document_image_retry_rule (outcome : Nat → Bool) :
    ((∀ i, i < MAX_DOWNLOAD_RETRIES → outcome i = false) →
      download_document_image outcome =
        { attempts := 3, sleeps := [2, 4, 6], result := false }) ∧
    ((download_document_image outcome).result = (outcome 0 || outcome 1 || outcome 2)) ∧
    (download_document_image outcome).attempts ≤ MAX_DOWNLOAD_RETRIES := by
  refine ⟨?_, ?_, ?_⟩
  · intro h
    have h0 := h 0 (by decide)
    have h1 := h 1 (by decide)
    have h2 := h 2 (by decide)
    simp [download_document_image, MAX_DOWNLOAD_RETRIES, downloadAttemptsFrom, h0, h1, h2]
  · cases h0 : outcome 0 <;> cases h1 : outcome 1 <;> cases h2 : outcome 2 <;>
      simp [download_document_image, MAX_DOWNLOAD_RETRIES, downloadAttemptsFrom, h0, h1, h2]
  · cases h0 : outcome 0 <;> cases h1 : outcome 1 <;> cases h2 : outcome 2 <;>
      simp [download_document_image, MAX_DOWNLOAD_RETRIES, downloadAttemptsFrom, h0, h1, h2]

/-- C4 witness: with every attempt failing, the trace is 3 attempts,
sleeps 2, 4, 6, result false. -/
theorem download_document_image_retry_rule_witness :
    download_document_image (fun _ => false) =
      { attempts := 3, sleeps := [2, 4, 6], result := false } :=
  (download_document_image_retry_rule fun _ => false).1 fun _ _ => rfl

/-! ## The letter extractor of `FairfaxLetterAgent.extract_letter_content`

A single pass over the lines of the document text.  Each line is
stripped; blank lines are skipped; then, in order: a line matching the
loose date pattern `\d{1,2}\s+\w+\s+19\d{2}` while no date is recorded
becomes the date; otherwise a line starting with "Dear" while no
salutation is recorded becomes the salutation and opens the body;
otherwise, inside the body, a line containing "Sincerely" or "Yours"
becomes the signature and closes the body; otherwise, inside the body,
the line is appended to the body buffer.
-/

/-- The literal `19\d{2}` at the head of the text (no trailing anchor). -/
def match19 : List Char → Bool
  | '1' :: '9' :: a :: b :: _ => a.isDigit && b.isDigit
  | _ => false

/-- The tail `\s+\w+\s+19\d{2}` of the loose pattern.  `\s+` and `\w+`
are taken maximally; this is exact because the following part of the
pattern can never consume a character of the same class (a `\w` run can
only be followed by `\s`, and a `\s` run by `\w` or the digit `1`). -/
def looseAfterDay (cs : List Char) : Bool :=
  !(cs.takeWhile isSpaceChar).isEmpty &&
    (let r1 := cs.dropWhile isSpaceChar
     !(r1.takeWhile isWordChar).isEmpty &&
       (let r2 := r1.dropWhile isWordChar
        !(r2.takeWhile isSpaceChar).isEmpty && match19 (r2.dropWhile isSpaceChar)))

/-- The loose pattern at one position; the greedy `\d{1,2}` tries two
digits, then backtracks to one. -/
def matchLooseAt : List Char → Bool
  | [] => false
  | c1 :: rest =>
    c1.isDigit &&
      (match rest with
       | [] => false
       | c2 :: rest2 =>
         if c2.isDigit then looseAfterDay rest2 || looseAfterDay (c2 :: rest2)
         else looseAfterDay rest)

/-- `re.search` of the loose date pattern: try every start position. -/
def searchLooseDate : List Char → Bool
  | [] => false
  | c :: cs => matchLooseAt (c :: cs) || searchLooseDate cs

structure ExtractState where
  date : Option String
  salutation : Option String
  signature : Option String
  in_body : Bool
  body_lines : List String
deriving DecidableEq

def initExtract : ExtractState := ⟨none, none, none, false, []⟩

/-- One iteration of the `for line in lines` loop. -/
def extractStep (s : ExtractState) (rawLine : String) : ExtractState :=
  let line := pyStrip rawLine
  if line.data.isEmpty then s
  else if s.date.isNone && searchLooseDate line.data then
    { s with date := some line }
  else if s.salutation.isNone && isPrefixChars ("Dear".data) line.data then
    { s with salutation := some line, in_body := true }
  else if s.in_body &&
      (containsSub line.data ("Sincerely".data) || containsSub line.data ("Yours".data)) then
    { s with signature := some line, in_body := false }
  else if s.in_body then { s with body_lines := s.body_lines ++ [line] }
  else s

structure LetterContent where
  date : Option String
  salutation : Option String
  body : Option String
  signature : Option String
deriving DecidableEq

/-- `len(letter_content)`: the number of populated fields. -/
def countFields (c : LetterContent) : Nat :=
  (if c.date.isSome then 1 else 0) + (if c.salutation.isSome then 1 else 0) +
    (if c.body.isSome then 1 else 0) + (if c.signature.isSome then 1 else 0)

/-- The whole line loop plus the final `if body_lines:` step. -/
def extractLetterFields (lines : List String) : LetterContent :=
  let s := lines.foldl extractStep initExtract
  { date := s.date
    salutation := s.salutation
    body :=
      if s.body_lines.isEmpty then none
      else some (String.intercalate ("\n") s.body_lines)
    signature := s.signature }

/-! ## The OCR and extraction passes over downloaded documents -/

structure OCRDoc where
  archive : String
  reference : String
  title : String
  date : String
  pages : List String
  analysis : Option Analysis
deriving DecidableEq

structure DownloadedDoc where
  archive : String
  reference : String
  title : String
  date : String
  images : List String
deriving DecidableEq

/-- `"\n\n".join(all_text)`. -/
def joinPages (pages : List String) : String := String.intercalate ("\n\n") pages

/-- `FairfaxLetterAgent.process_ocr`: the OCR engine is the oracle
`ocrText` mapping an image path to its extracted text. -/
def process_ocr (ocrText : String → String) (docs : List DownloadedDoc) : List OCRDoc :=
  docs.map fun d =>
    let texts := d.images.map ocrText
    { archive := d.archive
      reference := d.reference
      title := d.title
      date := d.date
      pages := texts
      analysis := if texts.isEmpty then none else some (analyze_text (joinPages texts)) }

structure PotentialLetter where
  archive : String
  reference : String
  title : String
  date : String
  extracted_content : LetterContent
  relevance_score : Nat
  full_text : String
deriving DecidableEq

/-- The body of the `for doc in ocr_results` loop of
`extract_letter_content`: skip documents without a truthy
`likely_correspondence` analysis, extract the letter structure, and keep
it only when at least two fields were populated. -/
def letterOf (doc : OCRDoc) : Option PotentialLetter :=
  doc.analysis.bind fun a =>
    if a.likely_correspondence then
      let all_text := joinPages doc.pages
      let content := extractLetterFields (splitLines all_text)
      if 2 ≤ countFields content then
        some ⟨doc.archive, doc.reference, doc.title, doc.date, content,
          a.relevance_score, all_text⟩
      else none
    else none

/-- `FairfaxLetterAgent.extract_letter_content`: collect the qualifying
letters in document order, then stably sort by descending relevance
score (`list.sort(key=..., reverse=True)`). -/
def extract_letter_content (ocr_results : List OCRDoc) : List PotentialLetter :=
  stableSort (fun a b => decide (b.relevance_score < a.relevance_score))
    (ocr_results.filterMap letterOf)

/-! ## Claims C7 and C10: extractor behaviour -/

def textC7 : String :=
  "12 November 1946\nDear Winston,\nIt was good to see you.\nYours sincerely,\nBryan"

def docC7 : OCRDoc :=
  { archive := "Churchill Archives Centre"
    reference := "CHAR 2/160"
    title := "Letter"
    date := "12 Nov 1946"
    pages := [textC7]
    analysis := some (analyze_text textC7) }

def contentC7 : LetterContent :=
  { date := some "12 November 1946"
    salutation := some "Dear Winston,"
    body := some "It was good to see you."
    signature := some "Yours sincerely," }

/-- C7: on the five example lines the extractor records the date, the
salutation, the single body line and the signature exactly as the spec
states (the trailing "Bryan" line falls outside the body and is
dropped). -/
theorem extract_letter_content_example :
    extract_letter_content [docC7] =
      [{ archive := "Churchill Archives Centre"
         reference := "CHAR 2/160"
         title := "Letter"
         date := "12 Nov 1946"
         extracted_content := contentC7
         relevance_score := 50
         full_text := textC7 }] := by decide

def linesC10 : List String :=
  ["Dear Henry,", "We spoke last week.", "3 May 1946", "More news soon.",
   "Yours faithfully,"]

/-- C10: the date test of the extractor is not restricted to the seeking
state: on any non-blank line matching the loose date pattern while no
date is recorded, the step records the stripped line as the date and
changes nothing else — in particular, inside the body the line is
captured as the date rather than appended to the body buffer; the
concrete run on `linesC10` shows the date taken from inside the body and
a body of the two surrounding lines. -/
theorem extractStep_date_inside_body :
    (∀ (s : ExtractState) (rawLine : String),
      s.date = none → s.in_body = true →
      (pyStrip rawLine).data.isEmpty = false →
      searchLooseDate (pyStrip rawLine).data = true →
      extractStep s rawLine = { s with date := some (pyStrip rawLine) }) ∧
    extractLetterFields linesC10 =
      { date := some "3 May 1946"
        salutation := some "Dear Henry,"
        body := some "We spoke last week.\nMore news soon."
        signature := some "Yours faithfully," } := by
  constructor
  · intro s rawLine h1 _h2 h3 h4
    simp [extractStep, h1, h3, h4]
  · decide

def stateC10w : ExtractState :=
  { date := none
    salutation := some "Dear X,"
    signature := none
    in_body := true
    body_lines := ["We met."] }

def lineC10w : String := "3 May 1946"

/-- C10 witness: a concrete in-body state and date line for which the
step records the date and leaves the body buffer unchanged. -/
theorem extractStep_date_inside_body_witness :
    extractStep stateC10w lineC10w = { stateC10w with date := some (pyStrip lineC10w) } :=
  extractStep_date_inside_body.1 stateC10w lineC10w rfl rfl (by decide) (by decide)

/-! ## Claim C6: provenance of extracted letters -/

lemma letterOf_eq_some {doc : OCRDoc} {pl : PotentialLetter}
    (h : letterOf doc = some pl) :
    ∃ a : Analysis, doc.analysis = some a ∧ a.likely_correspondence = true ∧
      2 ≤ countFields pl.extracted_content ∧ pl.full_text = joinPages doc.pages ∧
      pl.archive = doc.archive ∧ pl.reference = doc.reference ∧
      pl.relevance_score = a.relevance_score := by
  simp only [letterOf, Option.bind_eq_some] at h
  obtain ⟨a, ha, hif⟩ := h
  by_cases hl : a.likely_correspondence = true
  · rw [if_pos hl] at hif
    by_cases hc : 2 ≤ countFields (extractLetterFields (splitLines (joinPages doc.pages)))
    · rw [if_pos hc] at hif
      cases hif
      exact ⟨a, ha, hl, hc, rfl, rfl, rfl, rfl⟩
    · rw [if_neg hc] at hif
      cases hif
  · rw [if_neg hl] at hif
    cases hif

lemma analyze_text_likely_fairfax {t : String}
    (h : (analyze_text t).likely_correspondence = true) : fairfaxAny t.data = true := by
  by_cases hf : fairfaxAny t.data = true
  · exact hf
  · exfalso
    revert h
    simp [analyze_text, hf]

/-- C6: every letter produced by `extract_letter_content` originates from
an input document whose analysis exists and judges likely correspondence,
and carries at least two populated structural fields; and when the input
documents come from `process_ocr` (so the analysis is `analyze_text` of
the document's combined OCR text), every extracted letter's full text has
a Fairfax-pattern match — a document with no Fairfax mention never
appears in the final list. -/
theorem extract_letter_content_provenance :
    (∀ (ocr : List OCRDoc) (pl : PotentialLetter), pl ∈ extract_letter_content ocr →
      ∃ doc ∈ ocr, ∃ a : Analysis, doc.analysis = some a ∧
        a.likely_correspondence = true ∧
        2 ≤ countFields pl.extracted_content ∧
        pl.full_text = joinPages doc.pages ∧
        pl.archive = doc.archive ∧ pl.reference = doc.reference ∧
        pl.relevance_score = a.relevance_score) ∧
    (∀ (ocrText : String → String) (docs : List DownloadedDoc) (pl : PotentialLetter),
      pl ∈ extract_letter_content (process_ocr ocrText docs) →
      fairfaxAny pl.full_text.data = true) := by
  constructor
  · intro ocr pl hm
    rw [extract_letter_content] at hm
    have hm2 : pl ∈ ocr.filterMap letterOf := mem_stableSort.mp hm
    obtain ⟨doc, hdoc, hf⟩ := List.mem_filterMap.mp hm2
    obtain ⟨a, ha, hl, hc, hft, harc, href, hsc⟩ := letterOf_eq_some hf
    exact ⟨doc, hdoc, a, ha, hl, hc, hft, harc, href, hsc⟩
  · intro ocrText docs pl hm
    rw [extract_letter_content] at hm
    have hm2 : pl ∈ (process_ocr ocrText docs).filterMap letterOf := mem_stableSort.mp hm
    obtain ⟨doc, hdoc, hf⟩ := List.mem_filterMap.mp hm2
    obtain ⟨a, ha, hl, _hc, hft, _, _, _⟩ := letterOf_eq_some hf
    rw [process_ocr] at hdoc
    obtain ⟨d, _hd, hgd⟩ := List.mem_map.mp hdoc
    subst hgd
    dsimp only at ha hft
    by_cases he : (d.images.map ocrText).isEmpty = true
    · rw [if_pos he] at ha
      cases ha
    · rw [if_neg he] at ha
      have ha2 : a = analyze_text (joinPages (d.images.map ocrText)) :=
        (Option.some.inj ha).symm
      rw [ha2] at hl
      rw [hft]
      exact analyze_text_likely_fairfax hl

def textW6 : String := "Dear Winston,\nFairfax here.\nYours truly,"

def ocrOracleW6 : String → String := fun _ => textW6

def docsW6 : List DownloadedDoc := [⟨"A", "r", "t", "d", ["p1"]⟩]

def plW6 : PotentialLetter :=
  { archive := "A"
    reference := "r"
    title := "t"
    date := "d"
    extracted_content :=
      { date := none
        salutation := some "Dear Winston,"
        body := some "Fairfax here."
        signature := some "Yours truly," }
    relevance_score := 20
    full_text := textW6 }

/-- C6 witness: a concrete pipeline run whose single extracted letter has
a Fairfax match in its full text. -/
theorem extract_letter_content_provenance_witness :
    fairfaxAny plW6.full_text.data = true :=
  extract_letter_content_provenance.2 ocrOracleW6 docsW6 plW6 (by decide)

/-! ## Claim C5: `FairfaxLetterAgent.execute_full_search` outcome statuses

The download stage: records are taken in prioritised order; records whose
archive has no client, or with no image URLs, or whose every image
download fails are skipped; a document is produced from the successfully
downloaded images of a record, and the loop stops once `max_docs`
documents have been produced.  The transport outcome of each image
download (the boolean returned by `download_document_image`) is the
oracle `ok`, keyed by image URL.
-/

def ARCHIVE_NAMES : List String :=
  ["Churchill Archives Centre", "Library and Archives Canada",
   "University of Toronto Archives"]

def DOWNLOAD_DIR : String := "downloaded_documents"

/-- `result.get("reference", "unknown").replace("/", "_")`. -/
def sanitizeRef (r : String) : String :=
  String.mk (r.data.map fun c => if c == '/' then '_' else c)

def docFolder (archive reference : String) : String :=
  DOWNLOAD_DIR ++ "/" ++ archive ++ "_" ++ sanitizeRef reference

def pagePath (folder : String) (i : Nat) : String :=
  folder ++ "/page_" ++ toString (i + 1) ++ ".jpg"

/-- The `for i, url in enumerate(image_urls)` loop: the local paths of the
successfully downloaded images. -/
def downloadImages (ok : String → Bool) (r : SearchRecord) : List String :=
  r.image_urls.enum.filterMap fun p =>
    if ok p.2 then some (pagePath (docFolder r.archive r.reference) p.1) else none

def downloadLoopDocs (ok : String → Bool) (max_docs : Nat) :
    List SearchRecord → Nat → List DownloadedDoc
  | [], _ => []
  | r :: rs, count =>
    if max_docs ≤ count then []
    else if !(ARCHIVE_NAMES.contains r.archive) then downloadLoopDocs ok max_docs rs count
    else if r.image_urls.isEmpty then downloadLoopDocs ok max_docs rs count
    else
      let imgs := downloadImages ok r
      if imgs.isEmpty then downloadLoopDocs ok max_docs rs count
      else ⟨r.archive, r.reference, r.title, r.date, imgs⟩ ::
        downloadLoopDocs ok max_docs rs (count + 1)

/-- `FairfaxLetterAgent.download_documents`. -/
def download_documents (ok : String → Bool) (search_results : List SearchRecord)
    (max_docs : Nat) : List DownloadedDoc :=
  downloadLoopDocs ok max_docs (prioritizedRecords search_results) 0

structure SearchOutcome where
  status : String
  potential_letters : List PotentialLetter
deriving DecidableEq

/-- `FairfaxLetterAgent.execute_full_search`: search (the accumulated
records are the oracle `search_results`), download up to 10 documents,
OCR them, extract letters, and report a status.  The early-return result
dictionaries carry auxiliary keys (`reason`, `search_results`) not
modelled here; the claims concern the `status` field and the letters. -/
def execute_full_search (ok : String → Bool) (ocrText : String → String)
    (search_results : List SearchRecord) : SearchOutcome :=
  if search_results.isEmpty then ⟨"failure", []⟩
  else
    let docs := download_documents ok search_results 10
    if docs.isEmpty then ⟨"partial", []⟩
    else
      let letters := extract_letter_content (process_ocr ocrText docs)
      ⟨if letters.isEmpty then "partial" else "success", letters⟩

/-- C5: the pipeline always yields a result; its status is "failure"
exactly when the search stage accumulated no records, "success" exactly
when the search found records, some document was downloaded and at least
one letter candidate was extracted, and "partial" exactly when records
were found but a later stage produced nothing. -/
theorem execute_full_search_status (ok : String → Bool) (ocrText : String → String)
    (srs : List SearchRecord) :
    ((execute_full_search ok ocrText srs).status = "failure" ↔ srs = []) ∧
    ((execute_full_search ok ocrText srs).status = "success" ↔
      srs ≠ [] ∧ download_documents ok srs 10 ≠ [] ∧
        extract_letter_content (process_ocr ocrText (download_documents ok srs 10)) ≠ []) ∧
    ((execute_full_search ok ocrText srs).status = "partial" ↔
      srs ≠ [] ∧ (download_documents ok srs 10 = [] ∨
        extract_letter_content (process_ocr ocrText (download_documents ok srs 10)) = [])) := by
  by_cases h1 : srs = []
  · subst h1
    refine ⟨by simp [execute_full_search], ?_, ?_⟩ <;>
      simp [execute_full_search]
  · have h1e : srs.isEmpty = false := by simpa [List.isEmpty_eq_false] using h1
    by_cases h2 : download_documents ok srs 10 = []
    · have h2e : (download_documents ok srs 10).isEmpty = true := by simp [h2]
      refine ⟨?_, ?_, ?_⟩ <;> simp [execute_full_search, h1e, h2e, h1, h2]
    · have h2e : (download_documents ok srs 10).isEmpty = false := by
        simpa [List.isEmpty_eq_false] using h2
      by_cases h3 :
          extract_letter_content (process_ocr ocrText (download_documents ok srs 10)) = []
      · have h3e :
            (extract_letter_content
              (process_ocr ocrText (download_documents ok srs 10))).isEmpty = true := by
          simp [h3]
        refine ⟨?_, ?_, ?_⟩ <;>
          simp [execute_full_search, h1e, h2e, h3e, h1, h2, h3]
      · have h3e :
            (extract_letter_content
              (process_ocr ocrText (download_documents ok srs 10))).isEmpty = false := by
          simpa [List.isEmpty_eq_false] using h3
        refine ⟨?_, ?_, ?_⟩ <;>
          simp [execute_full_search, h1e, h2e, h3e, h1, h2, h3]

/-- C5 witness: with no search records the status is "failure". -/
theorem execute_full_search_status_witness :
    (execute_full_search (fun _ => false) (fun _ => emptyText) []).status = "failure" :=
  (execute_full_search_status (fun _ => false) (fun _ => emptyText) []).1.mpr rfl

/-! ## Claim C8: `ArchiveAPIClient._rate_limit`

`_rate_limit` reads the clock, sleeps `RATE_LIMIT_DELAY - (now - last)`
when less than `RATE_LIMIT_DELAY` has elapsed since this client's last
request, then stores a fresh clock reading in `self.last_request_time`,
immediately before the HTTP request is issued.  The injected clock is a
trace of observation pairs: each call observes `tEnter` on entry and
`tAfter` after the (possible) sleep; `tAfter` becomes the new
`last_request_time` and stands for the time of that call's request.  A
trace is valid when the observations never decrease across calls and the
post-sleep observation is at least the entry observation plus the
required sleep.  Two client instances A and B share the clock but each
has its own `last_request_time` field, exactly as each
`ArchiveAPIClient.__init__` sets `self.last_request_time`.  Times are ℚ
(Python float seconds, idealised as exact rationals).
-/

def RATE_LIMIT_DELAY : ℚ := 1

/-- The sleep performed by `_rate_limit` for a given own
`last_request_time` and entry clock reading. -/
def sleepTime (last now : ℚ) : ℚ :=
  if now - last < RATE_LIMIT_DELAY then RATE_LIMIT_DELAY - (now - last) else 0

inductive Who
  | A
  | B
deriving DecidableEq

structure RLState where
  lastA : ℚ
  lastB : ℚ

def getLast (s : RLState) : Who → ℚ
  | Who.A => s.lastA
  | Who.B => s.lastB

def setLast (s : RLState) : Who → ℚ → RLState
  | Who.A, t => { s with lastA := t }
  | Who.B, t => { s with lastB := t }

structure CallEv where
  who : Who
  tEnter : ℚ
  tAfter : ℚ

/-- Validity of an interleaved trace against the shared monotone clock
and the per-client sleep discipline. -/
def validEvents : RLState → ℚ → List CallEv → Bool
  | _, _, [] => true
  | s, tPrev, e :: es =>
    decide (tPrev ≤ e.tEnter) &&
      decide (e.tEnter + sleepTime (getLast s e.who) e.tEnter ≤ e.tAfter) &&
      validEvents (setLast s e.who e.tAfter) e.tAfter es

/-- The request instants of one client in an interleaved trace. -/
def requestTimes (w : Who) (evs : List CallEv) : List ℚ :=
  evs.filterMap fun e => if e.who = w then some e.tAfter else none

/-- The sleeps one client performs along an interleaved trace. -/
def interSleeps (w : Who) : RLState → List CallEv → List ℚ
  | _, [] => []
  | s, e :: es =>
    if e.who = w then
      sleepTime (getLast s w) e.tEnter :: interSleeps w (setLast s e.who e.tAfter) es
    else interSleeps w (setLast s e.who e.tAfter) es

/-- A client's own calls, extracted from the interleaved trace. -/
def projCalls (w : Who) (evs : List CallEv) : List (ℚ × ℚ) :=
  evs.filterMap fun e => if e.who = w then some (e.tEnter, e.tAfter) else none

/-- The sleeps of a single isolated client running the given calls. -/
def singleSleeps : ℚ → List (ℚ × ℚ) → List ℚ
  | _, [] => []
  | last, (n1, n2) :: rest => sleepTime last n1 :: singleSleeps n2 rest

lemma sleepTime_nonneg (last now : ℚ) : 0 ≤ sleepTime last now := by
  unfold sleepTime
  split <;> linarith

lemma le_add_sleepTime (last now : ℚ) :
    last + RATE_LIMIT_DELAY ≤ now + sleepTime last now := by
  unfold sleepTime
  split <;> linarith

lemma getLast_setLast (s : RLState) (w w2 : Who) (t : ℚ) :
    getLast (setLast s w t) w2 = if w = w2 then t else getLast s w2 := by
  cases w <;> cases w2 <;> simp [getLast, setLast]

lemma validEvents_chainFrom (w : Who) :
    ∀ (evs : List CallEv) (s : RLState) (tPrev : ℚ),
      validEvents s tPrev evs = true → s.lastA ≤ tPrev → s.lastB ≤ tPrev →
      List.Chain' (fun a b => a + RATE_LIMIT_DELAY ≤ b)
        (getLast s w :: requestTimes w evs) := by
  intro evs
  induction evs with
  | nil =>
    intro s tPrev _ _ _
    simp [requestTimes]
  | cons e es ih =>
    intro s tPrev hv hA hB
    simp only [validEvents, Bool.and_eq_true, decide_eq_true_eq] at hv
    obtain ⟨⟨h1, h2⟩, h3⟩ := hv
    have hsleep : 0 ≤ sleepTime (getLast s e.who) e.tEnter := sleepTime_nonneg _ _
    have hEA : e.tEnter ≤ e.tAfter := by linarith
    have hw : getLast s e.who ≤ tPrev := by
      cases hwho : e.who <;> simp only [getLast]
      · exact hA
      · exact hB
    have hgap : getLast s e.who + RATE_LIMIT_DELAY ≤ e.tAfter := by
      have := le_add_sleepTime (getLast s e.who) e.tEnter
      linarith
    have hA2 : (setLast s e.who e.tAfter).lastA ≤ e.tAfter := by
      cases hwho : e.who
      · simp [setLast]
      · simp only [setLast]
        linarith
    have hB2 : (setLast s e.who e.tAfter).lastB ≤ e.tAfter := by
      cases hwho : e.who
      · simp only [setLast]
        linarith
      · simp [setLast]
    have hchain := ih (setLast s e.who e.tAfter) e.tAfter h3 hA2 hB2
    by_cases hew : e.who = w
    · have hreq : requestTimes w (e :: es) = e.tAfter :: requestTimes w es := by
        simp [requestTimes, hew]
      rw [hreq]
      have hglast : getLast (setLast s e.who e.tAfter) w = e.tAfter := by
        rw [getLast_setLast, if_pos hew]
      rw [hglast] at hchain
      refine List.Chain'.cons ?_ hchain
      rw [← hew]
      exact hgap
    · have hreq : requestTimes w (e :: es) = requestTimes w es := by
        simp [requestTimes, hew]
      rw [hreq]
      have hglast : getLast (setLast s e.who e.tAfter) w = getLast s w := by
        rw [getLast_setLast, if_neg hew]
      rw [hglast] at hchain
      exact hchain

lemma interSleeps_eq_single (w : Who) :
    ∀ (evs : List CallEv) (s : RLState),
      interSleeps w s evs = singleSleeps (getLast s w) (projCalls w evs) := by
  intro evs
  induction evs with
  | nil => intro s; rfl
  | cons e es ih =>
    intro s
    by_cases hew : e.who = w
    · have hproj : projCalls w (e :: es) = (e.tEnter, e.tAfter) :: projCalls w es := by
        simp [projCalls, hew]
      simp only [interSleeps, if_pos hew, hproj, singleSleeps]
      rw [ih]
      have : getLast (setLast s e.who e.tAfter) w = e.tAfter := by
        rw [getLast_setLast, if_pos hew]
      rw [this]
    · have hproj : projCalls w (e :: es) = projCalls w es := by
        simp [projCalls, hew]
      simp only [interSleeps, if_neg hew, hproj]
      rw [ih]
      have : getLast (setLast s e.who e.tAfter) w = getLast s w := by
        rw [getLast_setLast, if_neg hew]
      rw [this]

/-- C8: in every valid interleaved trace of two clients over a monotone
injected clock, each client's consecutive request instants are separated
by at least `RATE_LIMIT_DELAY`; and each client's sleeps coincide with
the sleeps of the same client run in isolation on its own calls — the
limiter state is per instance, so the other client's requests impose no
delay. -/
theorem rate_limit_min_interval (s : RLState) (tPrev : ℚ) (evs : List CallEv) :
    (validEvents s tPrev evs = true → s.lastA ≤ tPrev → s.lastB ≤ tPrev →
      List.Chain' (fun a b => a + RATE_LIMIT_DELAY ≤ b) (requestTimes Who.A evs) ∧
      List.Chain' (fun a b => a + RATE_LIMIT_DELAY ≤ b) (requestTimes Who.B evs)) ∧
    interSleeps Who.A s evs = singleSleeps s.lastA (projCalls Who.A evs) ∧
    interSleeps Who.B s evs = singleSleeps s.lastB (projCalls Who.B evs) := by
  refine ⟨?_, interSleeps_eq_single Who.A evs s, interSleeps_eq_single Who.B evs s⟩
  intro hv hA hB
  constructor
  · exact (List.chain'_cons'.mp (validEvents_chainFrom Who.A evs s tPrev hv hA hB)).2
  · exact (List.chain'_cons'.mp (validEvents_chainFrom Who.B evs s tPrev hv hA hB)).2

def rlStateW : RLState := ⟨0, 0⟩

def rlEventsW : List CallEv := [⟨Who.A, 2, 2⟩, ⟨Who.B, 2, 2⟩, ⟨Who.A, 3, 3⟩]

/-- C8 witness: a concrete valid trace with a B call between two A calls;
both clients' request instants respect the minimum interval. -/
theorem rate_limit_min_interval_witness :
    List.Chain' (fun a b => a + RATE_LIMIT_DELAY ≤ b) (requestTimes Who.A rlEventsW) ∧
    List.Chain' (fun a b => a + RATE_LIMIT_DELAY ≤ b) (requestTimes Who.B rlEventsW) :=
  (rate_limit_min_interval rlStateW 0 rlEventsW).1
    (by norm_num [validEvents, rlEventsW, rlStateW, sleepTime, getLast, setLast,
      RATE_LIMIT_DELAY])
    (by simp [rlStateW]) (by simp [rlStateW])
